import Mathlib

/-!
Verification of the DroneDB indexing engine (`src/dbops.cpp`) against its
natural-language specification.

The embedding models paths and SQL text as `List Char`, the `entries` table
as a `List Entry` of rows in insertion order, and the filesystem as an
association list from relative paths to file attributes.  Statement-level
database operations (INSERT / UPDATE / DELETE / transaction control /
build-artifact removal) are recorded as an explicit event trace so that
ordering claims can be stated.

Collaborator code that is not part of the given sources (the SQLite engine's
LIKE evaluator, `utils::string_replace`, `utils::hasDotNotation`,
`parseEntry`, `io::Path::depth`, the table schema defaults) is modelled from
the specification; each such definition carries a doc comment saying so.
-/

namespace DroneDB

/-- Character strings of the model: relative paths, hashes, SQL patterns. -/
abbrev Str := List Char

deriving instance DecidableEq for Except

/-- Entry type tags, in the integer order used by the schema
(`Directory` is tag 1, matching `CREATE_FOLDER_QUERY`'s `type = 1`). -/
inductive EntryType where
  | Undefined
  | Directory
  | Generic
  | GeoImage
  | GeoRaster
  | PointCloud
  | Image
  | Vector
  | DroneDB
deriving DecidableEq, Repr

/-- A row of the `entries` table.  Geometries are modelled by their
presence (`true` = a non-null geometry column). -/
structure Entry where
  path : Str
  hash : Str
  type : EntryType
  meta : Str
  mtime : Int
  size : Nat
  depth : Nat
  point_geom : Bool
  polygon_geom : Bool
deriving DecidableEq, Repr

/-- Modelled from the spec: `depth` is the count of forward slashes in the
stored relative path (`io::Path::depth`, whose source is not given). -/
def countSlash (p : Str) : Nat := (p.filter (fun c => c = '/')).length

/-- Attributes of one filesystem object, as observed by the indexing code:
directory flag, modification time, content SHA-256 (abstracted), the
classifier's type tag, extracted metadata and geometries, and byte size. -/
structure FileInfo where
  isDir : Bool
  mtime : Int
  contentHash : Str
  ftype : EntryType
  fmeta : Str
  fsize : Nat
  fpoint : Bool
  fpolygon : Bool
deriving DecidableEq, Repr

/-- The filesystem below the working root: relative path to attributes. -/
abbrev FS := List (Str × FileInfo)

/-- Look a path up in the filesystem. -/
def fsLookup (fs : FS) (p : Str) : Option FileInfo :=
  (fs.find? (fun x => decide (x.1 = p))).map (fun x => x.2)

/-- Result of `checkUpdate` (source `FileStatus`). -/
inductive FileStatus where
  | NotModified
  | Modified
  | Deleted
deriving DecidableEq, Repr

/-- Source `checkUpdate` (dbops.cpp:216-244), returning the status together
with whether the file's SHA-256 was computed: missing file is `Deleted`;
a directory is `NotModified`; equal mtime is `NotModified` without hashing;
on differing mtime the hash is computed and compared. -/
def checkUpdateH (fs : FS) (p : Str) (dbMtime : Int) (dbHash : Str) :
    FileStatus × Bool :=
  match fsLookup fs p with
  | none => (FileStatus.Deleted, false)
  | some fi =>
    if fi.isDir then (FileStatus.NotModified, false)
    else if fi.mtime ≠ dbMtime then
      (if dbHash ≠ fi.contentHash then (FileStatus.Modified, true)
       else (FileStatus.NotModified, true))
    else (FileStatus.NotModified, false)

/-- The status component of `checkUpdateH`. -/
def checkUpdate (fs : FS) (p : Str) (dbMtime : Int) (dbHash : Str) : FileStatus :=
  (checkUpdateH fs p dbMtime dbHash).1

/-- Modelled from the spec (§4.3): `parseEntry` with `computeHash = true`.
The function itself is in `entry.cpp`, which is not among the given sources:
a directory yields type `Directory`, empty hash, textual `null` metadata,
zero size and no geometries; a file adopts the classifier's type, the
content hash and the extractor's metadata and geometries.  `depth` is the
slash count of the relative path. -/
def parseEntry (fs : FS) (p : Str) : Option Entry :=
  match fsLookup fs p with
  | none => none
  | some fi =>
    if fi.isDir then
      some { path := p, hash := [], type := EntryType.Directory,
             meta := "null".data, mtime := fi.mtime, size := 0,
             depth := countSlash p, point_geom := false, polygon_geom := false }
    else
      some { path := p, hash := fi.contentHash, type := fi.ftype,
             meta := fi.fmeta, mtime := fi.mtime, size := fi.fsize,
             depth := countSlash p, point_geom := fi.fpoint,
             polygon_geom := fi.fpolygon }

/-- A statement-level database or cache action, recorded in execution order. -/
inductive DbEvent where
  | beginTx
  | insertRow (e : Entry)
  | updateRow (e : Entry)
  | deleteRow (p : Str)
  | removeBuild (h : Str)
  | commitTx
  | rollbackTx
  | setLast
deriving DecidableEq, Repr

/-- `SELECT ... FROM entries WHERE path = ?` returning the first match. -/
def rowLookup (db : List Entry) (p : Str) : Option Entry :=
  db.find? (fun e => decide (e.path = p))

/-- The `INSERT` of `addToIndex`: a new row is appended. -/
def insertRowDb (db : List Entry) (e : Entry) : List Entry := db ++ [e]

/-- Source `doUpdate` / `UPDATE_QUERY`: every column except `path` of the
row keyed by `e.path` is overwritten with `e`'s fields. -/
def updateRowDb (db : List Entry) (e : Entry) : List Entry :=
  db.map (fun r => if r.path = e.path then e else r)

/-- `DELETE FROM entries WHERE path = ?` (source `deleteEntry`). -/
def deleteEntry (db : List Entry) (p : Str) : List Entry :=
  db.filter (fun r => decide (¬ r.path = p))

/-- The final path component (text after the last slash). -/
def lastComponent (p : Str) : Str :=
  (p.reverse.takeWhile (fun c => c ≠ '/')).reverse

/-- Result of `addToIndex`: the rows as visible on the open connection,
the event trace, and whether the loop ran to completion (reaching the
`COMMIT` and the last-edit update) rather than returning on a cancelling
callback. -/
structure AddResult where
  rows : List Entry
  events : List DbEvent
  completed : Bool
deriving DecidableEq, Repr

/-- The per-path loop of source `addToIndex` (dbops.cpp:278-333): skip
paths whose final name component contains a backslash; look the row up by
path; a missing row is parsed and inserted; an existing row is re-parsed
and updated when `checkUpdate` is not `NotModified`; after each insert or
update the callback runs and a false return exits the loop immediately.
Paths absent from the filesystem are skipped: `getIndexPathList` only
produces existing paths, so `parseEntry` cannot fail here. -/
def addGo (fs : FS) (cb : Entry → Bool → Bool) :
    List Str → List Entry → List DbEvent → Bool × List Entry × List DbEvent
  | [], db, evs => (true, db, evs)
  | p :: rest, db, evs =>
    if '\\' ∈ lastComponent p then addGo fs cb rest db evs
    else
      match rowLookup db p with
      | some r =>
        if checkUpdate fs p r.mtime r.hash ≠ FileStatus.NotModified then
          match parseEntry fs p with
          | none => addGo fs cb rest db evs
          | some e =>
            if cb e true then
              addGo fs cb rest (updateRowDb db e) (evs ++ [DbEvent.updateRow e])
            else (false, updateRowDb db e, evs ++ [DbEvent.updateRow e])
        else addGo fs cb rest db evs
      | none =>
        match parseEntry fs p with
        | none => addGo fs cb rest db evs
        | some e =>
          if cb e false then
            addGo fs cb rest (insertRowDb db e) (evs ++ [DbEvent.insertRow e])
          else (false, insertRowDb db e, evs ++ [DbEvent.insertRow e])

/-- Source `addToIndex` (dbops.cpp:263-339).  An empty path list returns at
once.  Otherwise the loop runs inside `BEGIN EXCLUSIVE TRANSACTION`; when
it completes, `COMMIT` executes and the last-edit timestamp is set.  When
the callback cancels, the source returns mid-transaction: no `COMMIT`, no
`ROLLBACK`, and no last-edit update appear in the trace. -/
def addToIndex (fs : FS) (cb : Entry → Bool → Bool) (paths : List Str)
    (db : List Entry) : AddResult :=
  if paths = [] then { rows := db, events := [], completed := true }
  else
    let r := addGo fs cb paths db [DbEvent.beginTx]
    if r.1 then
      { rows := r.2.1, events := r.2.2 ++ [DbEvent.commitTx, DbEvent.setLast],
        completed := true }
    else { rows := r.2.1, events := r.2.2, completed := false }

/-- Result of `syncIndex`: final rows, event trace, and the `changed` flag
that gates the last-edit update. -/
structure SyncResult where
  rows : List Entry
  events : List DbEvent
  changed : Bool
deriving DecidableEq, Repr

/-- The row scan of source `syncIndex` (dbops.cpp:513-545), iterating over
a snapshot of the rows: a `Deleted` row is deleted and then its build
subtree removed (`deleteQ->execute()` precedes `checkDeleteBuild`); a
`Modified` row is re-parsed and updated, with no build removal; otherwise
nothing happens.  `checkDeleteBuild` acts only on a non-empty hash; the
filesystem existence test on the build folder is elided since removal of
an absent folder is a no-op. -/
def syncGo (fs : FS) :
    List Entry → List Entry → List DbEvent → Bool →
    List Entry × List DbEvent × Bool
  | [], db, evs, ch => (db, evs, ch)
  | r :: rest, db, evs, ch =>
    match checkUpdate fs r.path r.mtime r.hash with
    | FileStatus.Deleted =>
      syncGo fs rest (deleteEntry db r.path)
        (evs ++ [DbEvent.deleteRow r.path] ++
          (if r.hash ≠ [] then [DbEvent.removeBuild r.hash] else [])) true
    | FileStatus.Modified =>
      match parseEntry fs r.path with
      | some e => syncGo fs rest (updateRowDb db e) (evs ++ [DbEvent.updateRow e]) true
      | none => syncGo fs rest db evs ch
    | FileStatus.NotModified => syncGo fs rest db evs ch

/-- Source `syncIndex` (dbops.cpp:502-551): the scan runs in an exclusive
transaction, `COMMIT` always executes, and the last-edit timestamp is set
only when some change was made. -/
def syncIndex (fs : FS) (db : List Entry) : SyncResult :=
  let r := syncGo fs db db [DbEvent.beginTx] false
  { rows := r.1,
    events := r.2.1 ++ [DbEvent.commitTx] ++ (if r.2.2 then [DbEvent.setLast] else []),
    changed := r.2.2 }

/-- Structural worker for `string_replace`; the fuel argument equals the
length of the remaining input, so the fuel-exhausted arm is unreachable. -/
def string_replaceGo (pat rep : Str) : Nat → Str → Str
  | _, [] => []
  | 0, s => s
  | fuel + 1, c :: rest =>
    if pat ≠ [] ∧ pat.isPrefixOf (c :: rest) then
      rep ++ string_replaceGo pat rep fuel (rest.drop (pat.length - 1))
    else c :: string_replaceGo pat rep fuel rest

/-- Modelled from the spec (§4.6): `utils::string_replace` (utils.cpp is
not among the given sources) replaces every occurrence of `pat` in the
input, scanning left to right and advancing past each replacement, so the
replacement text is never rescanned. -/
def string_replace (pat rep s : Str) : Str := string_replaceGo pat rep s.length s

/-- Source `sanitize_query_param` (dbops.cpp:382-394): the substitutions
`/` to `//`, then `%` to `/%`, then `_` to `/_`, then `*` to `%`,
applied in that order. -/
def sanitize_query_param (s : Str) : Str :=
  string_replace "*".data "%".data
    (string_replace "_".data "/_".data
      (string_replace "%".data "/%".data
        (string_replace "/".data "//".data s)))

/-- Modelled from the spec: SQL `LIKE` evaluation.  `%` matches any
sequence, `_` matches one character, and when `esc` is set `/` escapes the
next pattern character (the `ESCAPE char` clauses of dbops.cpp always use
`/`).  The store is an opaque engine per the spec, so `LIKE` is given its
standard case-sensitive semantics. -/
def likeMatchGo (esc : Bool) : Nat → Str → Str → Bool
  | _, [], [] => true
  | _, [], _ :: _ => false
  | fuel + 1, c :: ps, [] => if c = '%' then likeMatchGo esc fuel ps [] else false
  | fuel + 1, c :: ps, d :: s1 =>
    if c = '%' then likeMatchGo esc fuel ps (d :: s1) || likeMatchGo esc fuel (c :: ps) s1
    else if c = '_' then likeMatchGo esc fuel ps s1
    else if esc ∧ c = '/' then
      (if ps = [] then false
       else if ps.headD c = d then likeMatchGo esc fuel ps.tail s1 else false)
    else if c = d then likeMatchGo esc fuel ps s1 else false
  | 0, _ :: _, _ => false

/-- The matcher proper: the fuel `p.length + s.length` strictly dominates
the recursion depth of `likeMatchGo`, so the fuel-exhausted arm is never
taken. -/
def likeMatch (esc : Bool) (p s : Str) : Bool :=
  likeMatchGo esc (p.length + s.length) p s

/-- The pattern that `deleteFromIndex` hands to `LIKE ? ESCAPE '/'`: the
sanitized query, with `//%` appended for folder deletion. -/
def dfiPattern (query : Str) (isFolder : Bool) : Str :=
  let s0 := sanitize_query_param query
  if isFolder then s0 ++ "//%".data else s0

/-- The rows of the table matching `deleteFromIndex`'s pattern. -/
def dfiMatched (db : List Entry) (query : Str) (isFolder : Bool) : List Entry :=
  db.filter (fun e => likeMatch true (dfiPattern query isFolder) e.path)

/-- The build-removal events of `deleteFromIndex`'s fetch loop
(`checkDeleteBuild` on each matched row's non-empty hash, in fetch order). -/
def dfiRemOps (matched : List Entry) : List DbEvent :=
  matched.foldr
    (fun e acc => (if e.hash ≠ [] then [DbEvent.removeBuild e.hash] else []) ++ acc) []

/-- Source `deleteFromIndex` (dbops.cpp:408-454): sanitize the query,
append `//%` for folders, fetch all rows matching `LIKE ? ESCAPE '/'`,
remove each matched row's build subtree while fetching, and only then, if
anything matched, execute one `DELETE` over the same pattern.  Returns the
match count, the remaining rows, and the event trace. -/
def deleteFromIndex (db : List Entry) (query : Str) (isFolder : Bool) :
    Nat × List Entry × List DbEvent :=
  let matched := dfiMatched db query isFolder
  if matched.length > 0 then
    (matched.length,
     db.filter (fun e => ! likeMatch true (dfiPattern query isFolder) e.path),
     dfiRemOps matched ++ matched.map (fun e => DbEvent.deleteRow e.path))
  else (0, db, dfiRemOps matched)

/-- The pattern that source `getMatchingEntries` (dbops.cpp:456-500)
hands to `LIKE ? ESCAPE '/'`: the sanitized input, `%` when that is
empty, with `//%` appended for folder queries. -/
def matchingPattern (path : Str) (isFolder : Bool) : Str :=
  let s0 := sanitize_query_param path
  let s1 := if s0 = [] then "%".data else s0
  if isFolder then s1 ++ "//%".data else s1

/-- Source `getMatchingEntries`: all rows matching the sanitized pattern,
filtered by `depth <= maxRecursionDepth - 1` when a positive recursion
bound is given (0 means all depths). -/
def getMatchingEntries (db : List Entry) (path : Str)
    (maxRecursionDepth : Nat) (isFolder : Bool) : List Entry :=
  let base := db.filter (fun e => likeMatch true (matchingPattern path isFolder) e.path)
  if maxRecursionDepth > 0 then
    base.filter (fun e => e.depth ≤ maxRecursionDepth - 1)
  else base

/-- The inner loop of source `removeFromIndex` (dbops.cpp:363-373): for
each matched entry, delete by exact (sanitized) path, and for a directory
additionally delete the `//%` descendants; counts accumulate across the
sequentially mutated row list. -/
def procMatches : List Entry → List Entry → Nat × List Entry
  | db, [] => (0, db)
  | db, e :: rest =>
    let r1 := deleteFromIndex db e.path false
    let r2 := if e.type = EntryType.Directory
              then deleteFromIndex r1.2.1 e.path true
              else (0, r1.2.1, [])
    let r3 := procMatches r2.2.1 rest
    (r1.1 + r2.1 + r3.1, r3.2)

/-- The per-input loop of source `removeFromIndex` (dbops.cpp:352-376):
each input path is matched, its matches are deleted, and `FSException`
is thrown as soon as one input's accumulated count is zero. -/
def removeGo : List Entry → List Str → Except Unit (List Entry)
  | db, [] => Except.ok db
  | db, p :: rest =>
    let ms := getMatchingEntries db p 0 false
    let r := procMatches db ms
    if r.1 = 0 then Except.error () else removeGo r.2 rest

/-- Source `removeFromIndex` (dbops.cpp:341-380): an empty input list
returns at once; otherwise the inputs are processed in order. -/
def removeFromIndex (db : List Entry) (paths : List Str) :
    Except Unit (List Entry) :=
  if paths = [] then Except.ok db else removeGo db paths

/-- Modelled from the spec: SQLite `replace(s, pat, rep)`; with an empty
pattern the input is returned unchanged. -/
def sqlReplace (s pat rep : Str) : Str :=
  if pat = [] then s else string_replace pat rep s

/-- Modelled from the spec: SQLite `rtrim(s, set)` removes from the right
every character occurring in `set`. -/
def rtrimSet (s set : Str) : Str :=
  (s.reverse.dropWhile (fun c => c ∈ set)).reverse

/-- Modelled from the spec: SQLite `trim(s, set)` removes characters of
`set` from both ends. -/
def trimSet (s set : Str) : Str :=
  ((s.dropWhile (fun c => c ∈ set)).reverse.dropWhile (fun c => c ∈ set)).reverse

/-- The folder computation of `FOLDER_CONSISTENCY_QUERY`
(dbops.cpp:669-672):
`TRIM(replace(path, replace(path, rtrim(path, replace(path,'/','')), ''), ''), '/')`.
It strips the final name component by right-trimming over the path's
non-slash character set, deletes every occurrence of the residue, and
trims slashes. -/
def folderOf (p : Str) : Str :=
  let noSlash := sqlReplace p "/".data []
  let pref0 := rtrimSet p noSlash
  let fname := sqlReplace p pref0 []
  trimSet (sqlReplace p fname []) "/".data

/-- The synthetic directory row inserted by `CREATE_FOLDER_QUERY`
(dbops.cpp:674): `type = 1`, textual `null` metadata, zero size, depth of
the path; the unspecified columns take the schema defaults, modelled from
the spec as empty hash and null geometries. -/
def dirRow (p : Str) (now : Int) : Entry :=
  { path := p, hash := [], type := EntryType.Directory, meta := "null".data,
    mtime := now, size := 0, depth := countSlash p,
    point_geom := false, polygon_geom := false }

/-- Source `addFolder` (dbops.cpp:676-682). -/
def addFolder (db : List Entry) (p : Str) (now : Int) : List Entry :=
  db ++ [dirRow p now]

/-- The fetch-and-insert loop of source `createMissingFolders`
(dbops.cpp:684-698) over a snapshot of the non-directory rows: a computed
folder is inserted when it is non-empty and no `Directory` row with that
path is present yet (presence is checked against the growing row list, so
a folder shared by several rows is inserted once). -/
def cmfGo (now : Int) : List Entry → List Entry → List Entry
  | acc, [] => acc
  | acc, r :: rest =>
    let f := folderOf r.path
    if f ≠ [] ∧ ¬ acc.any (fun x => x.path = f ∧ x.type = EntryType.Directory)
    then cmfGo now (addFolder acc f now) rest
    else cmfGo now acc rest

/-- Source `createMissingFolders`: run the consistency query (which reads
rows with `type != 1`) and add each missing computed folder. -/
def createMissingFolders (db : List Entry) (now : Int) : List Entry :=
  cmfGo now db (db.filter (fun r => decide (¬ r.type = EntryType.Directory)))

/-- Source `pathExists` / `getEntry` lookup by exact path. -/
def getEntry (db : List Entry) (p : Str) : Option Entry :=
  db.find? (fun e => decide (e.path = p))

/-- Source `listFolderPaths` (dbops.cpp:725-743): paths of rows matching
`path LIKE '<path>/%'` (no `ESCAPE` clause) or equal to `path`, in row
order. -/
def listFolderPaths (db : List Entry) (path : Str) : List Str :=
  (db.filter (fun r => likeMatch false (path ++ "/%".data) r.path || r.path = path)).map
    (fun r => r.path)

/-- Source `replacePath` (dbops.cpp:745-756): rewrite the row keyed by
`source` to `dest`, recomputing `depth`. -/
def replacePath (db : List Entry) (source dest : Str) : List Entry :=
  db.map (fun r =>
    if r.path = source then { r with path := dest, depth := countSlash dest } else r)

/-- The index of the `source[source.length() - 1]` accesses of
`moveEntry` (dbops.cpp:760-767), computed in `size_t` arithmetic: for an
empty string the subtraction wraps around 2^64. -/
def moveEntrySepIndex (s : Str) : Nat := (s.length + (2 ^ 64 - 1)) % 2 ^ 64

/-- The character that `moveEntry`'s trailing-separator test reads;
`none` when the computed index is out of bounds (the empty-string case,
undefined behaviour in the source). -/
def moveEntryLastAccess (s : Str) : Option Char := s.get? (moveEntrySepIndex s)

/-- The trailing-separator test of `moveEntry`; for the empty string the
source reads out of bounds, modelled as no separator found. -/
def trailingSep (s : Str) : Bool :=
  match moveEntryLastAccess s with
  | some c => c = '/' || c = '\\'
  | none => false

/-- Modelled from the spec (§4.5): `utils::hasDotNotation` (utils.cpp is
not among the given sources) detects a `/`-separated segment equal to
`.` or `..`. -/
def hasDotNotation (s : Str) : Bool :=
  (s.splitOn '/').any (fun seg => seg = ".".data || seg = "..".data)

/-- The directory-move rewrite loop of `moveEntry` (dbops.cpp:812-821):
for each enumerated path, the new path is `dest` plus the suffix of the
old path after `source.length()` characters; any row at the new path is
deleted, then the old row is rewritten. -/
def moveFoldGo (source dest : Str) : List Entry → List Str → List Entry
  | db, [] => db
  | db, p :: rest =>
    let np := dest ++ p.drop source.length
    moveFoldGo source dest (replacePath (deleteEntry db np) p np) rest

/-- Source `moveEntry` (dbops.cpp:758-831).  All thrown exceptions are
`InvalidArgsException`, modelled as `Except.error ()`.  Guard order
follows the source: trailing separator and dot-notation checks on both
endpoints, the `source == dest` no-op, source lookup, destination
conflict checks, then the file rewrite or the directory rewrite loop
followed by `createMissingFolders`. -/
def moveEntry (db : List Entry) (source dest : Str) (now : Int) :
    Except Unit (List Entry) :=
  if trailingSep source then Except.error ()
  else if hasDotNotation source then Except.error ()
  else if trailingSep dest then Except.error ()
  else if hasDotNotation dest then Except.error ()
  else if source = dest then Except.ok db
  else
    match getEntry db source with
    | none => Except.error ()
    | some se =>
      match getEntry db dest with
      | some de =>
        if se.type = EntryType.Directory then Except.error ()
        else if de.type = EntryType.Directory then Except.error ()
        else Except.ok (replacePath (deleteEntry db dest) source dest)
      | none =>
        if se.type = EntryType.Directory then
          Except.ok (createMissingFolders
            (moveFoldGo source dest db (listFolderPaths db source)) now)
        else Except.ok (replacePath db source dest)

/-! ### Characterization of the sanitizer as a per-character encoding -/

/-- Concatenation of a per-character expansion over a string. -/
def flatF (f : Char → Str) (s : Str) : Str :=
  s.foldr (fun d acc => f d ++ acc) []

/-- The per-character encoding performed by `sanitize_query_param`. -/
def sanEnc (c : Char) : Str :=
  if c = '/' then "//".data
  else if c = '%' then "/%".data
  else if c = '_' then "/_".data
  else if c = '*' then "%".data
  else [c]

/-- The escaped-literal encoding for patterns used with `ESCAPE '/'`. -/
def escEnc (c : Char) : Str :=
  if c = '/' ∨ c = '%' ∨ c = '_' then ['/', c] else [c]

/-- Is this event a build-subtree removal? -/
def isRemoveBuild : DbEvent → Bool
  | DbEvent.removeBuild _ => true
  | _ => false

/-- Is this event a row mutation (insert, update or delete)? -/
def isRowMut : DbEvent → Bool
  | DbEvent.insertRow _ => true
  | DbEvent.updateRow _ => true
  | DbEvent.deleteRow _ => true
  | _ => false

/-- Does the trace contain a build removal, and does its first occurrence
precede the first row mutation?  On a trace holding a single entry's
mutation this is exactly the claimed invalidate-before-mutate ordering. -/
def invalidationBeforeMutation (tr : List DbEvent) : Bool :=
  match tr.findIdx? isRemoveBuild, tr.findIdx? isRowMut with
  | some i, some j => decide (i < j)
  | none, some _ => false
  | _, none => true

/-- Traces in which a build-subtree removal can appear only immediately
after a row deletion. -/
inductive GoodTrace : List DbEvent → Prop where
  | nil : GoodTrace []
  | keep (e : DbEvent) (t : List DbEvent) : isRemoveBuild e = false → GoodTrace t →
      GoodTrace (e :: t)
  | delrem (p hsh : Str) (t : List DbEvent) : GoodTrace t →
      GoodTrace (DbEvent.deleteRow p :: DbEvent.removeBuild hsh :: t)

/-- Invariant 5 of the spec for one row: a `Directory` entry has empty
hash, textual `null` metadata, zero size and no geometries. -/
def dirOK (e : Entry) : Prop :=
  e.type = EntryType.Directory →
    e.hash = [] ∧ e.meta = "null".data ∧ e.size = 0 ∧
    e.point_geom = false ∧ e.polygon_geom = false

/-- Invariant 5 over a whole table state. -/
def DirsOK (db : List Entry) : Prop := ∀ e ∈ db, dirOK e

/-- The classifier contract (spec §4.1): classification of an ordinary
file never yields the `Directory` tag. -/
def FSWF (fs : FS) : Prop :=
  ∀ pr ∈ fs, pr.2.isDir = false → pr.2.ftype ≠ EntryType.Directory

/-- One row of the table is in sync with the filesystem: `checkUpdate` on
its stored mtime and hash reports `NotModified`. -/
def rowSynced (fs : FS) (e : Entry) : Prop :=
  checkUpdate fs e.path e.mtime e.hash = FileStatus.NotModified

/-- The proper `/`-prefixes of a path (the text before each slash). -/
def properSlashPrefixes (p : Str) : List Str :=
  (List.range p.length).filterMap
    (fun i => if p.get? i = some '/' then some (p.take i) else none)

/-- Invariant 2 of the spec as a decidable check: every proper slash
prefix of every row's path carries a `Directory` row. -/
def folderInvariant (db : List Entry) : Bool :=
  db.all (fun e =>
    (properSlashPrefixes e.path).all
      (fun q => db.any (fun r => r.path = q ∧ r.type = EntryType.Directory)))

/-- Did the operation succeed (no exception thrown)? -/
def isOkE (r : Except Unit (List Entry)) : Bool :=
  match r with
  | Except.ok _ => true
  | Except.error _ => false

/-- Attributes of an ordinary image file used by the concrete scenarios. -/
def imgInfo (m : Int) (hsh : Str) : FileInfo :=
  { isDir := false, mtime := m, contentHash := hsh, ftype := EntryType.Image,
    fmeta := "em".data, fsize := 1, fpoint := false, fpolygon := false }

/-- The entry that `parseEntry` produces for `imgInfo`. -/
def imgRow (p : Str) (m : Int) (hsh : Str) : Entry :=
  { path := p, hash := hsh, type := EntryType.Image, meta := "em".data,
    mtime := m, size := 1, depth := countSlash p,
    point_geom := false, polygon_geom := false }

/-- A one-image filesystem. -/
def fsOneImage : FS := [("a.jpg".data, imgInfo 5 "h1".data)]

/-- The indexed row of `fsOneImage`. -/
def dbOneImage : List Entry := [imgRow "a.jpg".data 5 "h1".data]

/-- The same file after an on-disk rewrite: new mtime, new content hash. -/
def fsTouched : FS := [("a.jpg".data, imgInfo 9 "h2".data)]

/-- A table holding one top-level file row. -/
def dbOneFile : List Entry := [imgRow "a".data 1 "h".data]

/-- A table holding `a`, `a/b` and `a/b/f`, ready for a directory move. -/
def dbMoveSrc : List Entry :=
  [dirRow "a".data 0, dirRow "a/b".data 0, imgRow "a/b/f".data 5 "h1".data]

/-- The rows left by `moveEntry dbMoveSrc "a/b" "c/d"`: the moved subtree
is rewritten but no `Directory` row for `c` is ever created. -/
def dbMoveOut : List Entry :=
  [dirRow "a".data 0, dirRow "c/d".data 0, imgRow "c/d/f".data 5 "h1".data]

/-- A table holding a single directory row `a`. -/
def dbDirA : List Entry := [dirRow "a".data 0]

/-- A table holding two files in the same folder plus their parents. -/
def dbTwoFiles : List Entry :=
  [dirRow "a".data 0, dirRow "a/b".data 0,
   imgRow "a/b/img.jpg".data 1 "h1".data, imgRow "a/b/pic.jpg".data 2 "h2".data]

theorem flatF_nil (f : Char → Str) : flatF f [] = [] := rfl

theorem flatF_cons (f : Char → Str) (d : Char) (s : Str) :
    flatF f (d :: s) = f d ++ flatF f s := rfl

theorem flatF_append (f : Char → Str) (a b : Str) :
    flatF f (a ++ b) = flatF f a ++ flatF f b := by
  induction a with
  | nil => rfl
  | cons d a ih => simp [flatF_cons, ih]

theorem flatF_flatF (f g : Char → Str) (s : Str) :
    flatF g (flatF f s) = flatF (fun d => flatF g (f d)) s := by
  induction s with
  | nil => rfl
  | cons d s ih => rw [flatF_cons, flatF_append, ih, flatF_cons]

theorem flatF_congr {f g : Char → Str} (h : ∀ d, f d = g d) (s : Str) :
    flatF f s = flatF g s := by
  induction s with
  | nil => rfl
  | cons d s ih => rw [flatF_cons, flatF_cons, h, ih]

/-- Replacement of a single-character pattern is a per-character map
(worker form, any sufficient fuel). -/
theorem string_replaceGo_single (c : Char) (r : Str) :
    ∀ (fuel : Nat) (s : Str), s.length ≤ fuel →
      string_replaceGo [c] r fuel s = flatF (fun d => if d = c then r else [d]) s := by
  intro fuel
  induction fuel with
  | zero =>
    intro s h
    match s with
    | [] => rfl
    | d :: rest => simp at h
  | succ f ih =>
    intro s h
    match s with
    | [] => rfl
    | d :: rest =>
      rw [string_replaceGo, flatF_cons]
      by_cases hdc : d = c
      · subst hdc
        rw [if_pos ⟨by simp, by simp [List.isPrefixOf]⟩]
        simp only [List.length_cons] at h
        simp [ih rest (by omega)]
      · rw [if_neg]
        · simp only [List.length_cons] at h
          simp [hdc, ih rest (by omega)]
        · simp [List.isPrefixOf, hdc]
          intro hcd
          exact absurd hcd.symm hdc

/-- Replacement of a single-character pattern is a per-character map. -/
theorem string_replace_single (c : Char) (r : Str) (s : Str) :
    string_replace [c] r s = flatF (fun d => if d = c then r else [d]) s :=
  string_replaceGo_single c r s.length s (Nat.le_refl _)

/-- The four ordered substitutions of `sanitize_query_param` amount to one
left-to-right pass encoding each input character. -/
theorem sanitize_eq_flatF (s : Str) : sanitize_query_param s = flatF sanEnc s := by
  unfold sanitize_query_param
  rw [string_replace_single, string_replace_single, string_replace_single,
      string_replace_single, flatF_flatF, flatF_flatF, flatF_flatF]
  apply flatF_congr
  intro d
  by_cases h1 : d = '/'
  · subst h1; rfl
  by_cases h2 : d = '%'
  · subst h2; rfl
  by_cases h3 : d = '_'
  · subst h3; rfl
  by_cases h4 : d = '*'
  · subst h4; rfl
  · simp [flatF, sanEnc, h1, h2, h3, h4]

/-! ### LIKE-matching lemmas -/

/-- The worker is insensitive to the exact fuel as long as it dominates
the measure `p.length + s.length`. -/
theorem likeMatchGo_fuel (esc : Bool) :
    ∀ fuel1 fuel2 p s, p.length + s.length ≤ fuel1 → p.length + s.length ≤ fuel2 →
      likeMatchGo esc fuel1 p s = likeMatchGo esc fuel2 p s := by
  intro fuel1
  induction fuel1 with
  | zero =>
    intro fuel2 p s h1 h2
    match p, s with
    | [], [] => cases fuel2 <;> rfl
    | [], d :: s1 => simp at h1
    | c :: ps, s => simp only [List.length_cons] at h1; omega
  | succ f ih =>
    intro fuel2 p s h1 h2
    match p, s with
    | [], [] => cases fuel2 <;> rfl
    | [], d :: s1 =>
      cases fuel2 with
      | zero => simp at h2
      | succ g => rfl
    | c :: ps, [] =>
      cases fuel2 with
      | zero => simp at h2
      | succ g =>
        simp only [List.length_cons, List.length_nil, Nat.add_zero] at h1 h2
        have e1 : likeMatchGo esc f ps [] = likeMatchGo esc g ps [] :=
          ih g ps [] (by simp only [List.length_nil, Nat.add_zero]; omega)
            (by simp only [List.length_nil, Nat.add_zero]; omega)
        rw [likeMatchGo, likeMatchGo, e1]
    | c :: ps, d :: s1 =>
      cases fuel2 with
      | zero => simp at h2
      | succ g =>
        simp only [List.length_cons] at h1 h2
        have e1 : likeMatchGo esc f ps (d :: s1) = likeMatchGo esc g ps (d :: s1) :=
          ih g ps (d :: s1) (by simp only [List.length_cons]; omega)
            (by simp only [List.length_cons]; omega)
        have e2 : likeMatchGo esc f (c :: ps) s1 = likeMatchGo esc g (c :: ps) s1 :=
          ih g (c :: ps) s1 (by simp only [List.length_cons]; omega)
            (by simp only [List.length_cons]; omega)
        have e3 : likeMatchGo esc f ps s1 = likeMatchGo esc g ps s1 :=
          ih g ps s1 (by omega) (by omega)
        have e4 : likeMatchGo esc f ps.tail s1 = likeMatchGo esc g ps.tail s1 :=
          ih g ps.tail s1 (by simp only [List.length_tail]; omega)
            (by simp only [List.length_tail]; omega)
        rw [likeMatchGo, likeMatchGo, e1, e2, e3, e4]

theorem likeMatch_nil_nil (esc : Bool) : likeMatch esc [] [] = true := rfl

theorem likeMatch_nil_cons (esc : Bool) (d : Char) (s : Str) :
    likeMatch esc [] (d :: s) = false := by
  unfold likeMatch
  rw [show ([] : Str).length + (d :: s).length = s.length + 1 by simp, likeMatchGo]

theorem likeMatch_cons_nil (esc : Bool) (c : Char) (ps : Str) :
    likeMatch esc (c :: ps) [] = if c = '%' then likeMatch esc ps [] else false := by
  unfold likeMatch
  rw [show (c :: ps).length + ([] : Str).length = ps.length + 1 by simp, likeMatchGo]
  rw [show ps.length + ([] : Str).length = ps.length by simp]

theorem likeMatch_cons_cons (esc : Bool) (c : Char) (ps : Str) (d : Char) (s1 : Str) :
    likeMatch esc (c :: ps) (d :: s1) =
      (if c = '%' then likeMatch esc ps (d :: s1) || likeMatch esc (c :: ps) s1
       else if c = '_' then likeMatch esc ps s1
       else if esc = true ∧ c = '/' then
         (if ps = [] then false
          else if ps.headD c = d then likeMatch esc ps.tail s1 else false)
       else if c = d then likeMatch esc ps s1 else false) := by
  unfold likeMatch
  rw [show (c :: ps).length + (d :: s1).length = (ps.length + (d :: s1).length) + 1 by
        simp only [List.length_cons]; omega, likeMatchGo]
  rw [likeMatchGo_fuel esc (ps.length + (d :: s1).length) ((c :: ps).length + s1.length)
        (c :: ps) s1 (by simp only [List.length_cons]; omega)
        (by simp only [List.length_cons]; omega),
      likeMatchGo_fuel esc (ps.length + (d :: s1).length) (ps.length + s1.length)
        ps s1 (by simp only [List.length_cons]; omega) (by omega),
      likeMatchGo_fuel esc (ps.length + (d :: s1).length) (ps.tail.length + s1.length)
        ps.tail s1 (by simp only [List.length_tail, List.length_cons]; omega)
        (by omega)]

theorem likeMatch_pct_all (esc : Bool) (s : Str) : likeMatch esc ['%'] s = true := by
  induction s with
  | nil => rw [likeMatch_cons_nil, if_pos rfl, likeMatch_nil_nil]
  | cons c s ih => rw [likeMatch_cons_cons, if_pos rfl, ih, Bool.or_true]

theorem likeMatch_pct_weaken (esc : Bool) (ps s : Str)
    (h : likeMatch esc ps s = true) : likeMatch esc ('%' :: ps) s = true := by
  cases s with
  | nil => rw [likeMatch_cons_nil, if_pos rfl]; exact h
  | cons d s1 => rw [likeMatch_cons_cons, if_pos rfl, h, Bool.true_or]

/-- A pattern consisting of an escaped literal prefix followed by one `%`
matches exactly the strings extending that literal prefix. -/
theorem likeMatch_escLit_prefix (L : Str) :
    ∀ s : Str, likeMatch true (flatF escEnc L ++ ['%']) s = L.isPrefixOf s := by
  induction L with
  | nil =>
    intro s
    simp [flatF_nil, likeMatch_pct_all, List.isPrefixOf]
  | cons c L ih =>
    intro s
    rw [flatF_cons, List.append_assoc]
    by_cases hc : c = '/' ∨ c = '%' ∨ c = '_'
    · rw [show escEnc c = ['/', c] from if_pos hc]
      cases s with
      | nil =>
        rw [List.cons_append, List.cons_append, likeMatch_cons_nil]
        simp [List.isPrefixOf]
      | cons d s1 =>
        rw [List.cons_append, List.cons_append, likeMatch_cons_cons]
        simp only [List.isPrefixOf, Bool.and_eq_true, beq_iff_eq]
        by_cases hcd : c = d
        · subst hcd
          simp [ih s1]
        · simp [hcd]
    · rw [show escEnc c = [c] from if_neg hc]
      push_neg at hc
      cases s with
      | nil =>
        rw [List.cons_append, likeMatch_cons_nil]
        simp [hc.1, hc.2.1, List.isPrefixOf]
      | cons d s1 =>
        rw [List.cons_append, likeMatch_cons_cons]
        simp only [List.isPrefixOf, Bool.and_eq_true, beq_iff_eq]
        by_cases hcd : c = d
        · subst hcd
          simp [hc.1, hc.2.1, hc.2.2, ih s1]
        · simp [hc.1, hc.2.1, hc.2.2, hcd]

/-- Every sanitized path pattern matches the path it was built from. -/
theorem likeMatch_sanitize_self (p : Str) :
    likeMatch true (flatF sanEnc p) p = true := by
  induction p with
  | nil => rw [flatF_nil, likeMatch_nil_nil]
  | cons c p ih =>
    rw [flatF_cons]
    by_cases h1 : c = '/'
    · subst h1
      rw [show sanEnc '/' = ['/', '/'] from rfl, List.cons_append, List.cons_append,
          likeMatch_cons_cons]
      simp [ih]
    by_cases h2 : c = '%'
    · subst h2
      rw [show sanEnc '%' = ['/', '%'] from rfl, List.cons_append, List.cons_append,
          likeMatch_cons_cons]
      simp [ih]
    by_cases h3 : c = '_'
    · subst h3
      rw [show sanEnc '_' = ['/', '_'] from rfl, List.cons_append, List.cons_append,
          likeMatch_cons_cons]
      simp [ih]
    by_cases h4 : c = '*'
    · subst h4
      rw [show sanEnc '*' = ['%'] from rfl, List.cons_append, likeMatch_cons_cons]
      simp [likeMatch_pct_weaken true (flatF sanEnc p) p ih]
    · rw [show sanEnc c = [c] from by simp [sanEnc, h1, h2, h3, h4],
          List.cons_append, likeMatch_cons_cons]
      simp [h1, h2, h3, h4, ih]

/-- Without an escape clause, a wildcard-free literal followed by one `%`
matches exactly the strings extending the literal. -/
theorem likeMatch_noesc_lit_prefix (L : Str)
    (hL : ∀ c ∈ L, c ≠ '%' ∧ c ≠ '_') :
    ∀ s : Str, likeMatch false (L ++ ['%']) s = L.isPrefixOf s := by
  induction L with
  | nil =>
    intro s
    simp [likeMatch_pct_all, List.isPrefixOf]
  | cons c L ih =>
    intro s
    have hc := hL c (List.mem_cons_self c L)
    have hL1 : ∀ d ∈ L, d ≠ '%' ∧ d ≠ '_' := fun d hd => hL d (List.mem_cons_of_mem c hd)
    cases s with
    | nil =>
      rw [List.cons_append, likeMatch_cons_nil]
      simp [hc.1, List.isPrefixOf]
    | cons d s1 =>
      rw [List.cons_append, likeMatch_cons_cons]
      simp only [List.isPrefixOf, Bool.and_eq_true, beq_iff_eq]
      by_cases hcd : c = d
      · subst hcd
        simp [hc.1, hc.2, ih hL1 s1]
      · simp [hc.1, hc.2, hcd]

/-- Without an escape clause, matching is stable under prepending the same
text to pattern and subject. -/
theorem likeMatch_noesc_append_mono (L ps s : Str)
    (h : likeMatch false ps s = true) :
    likeMatch false (L ++ ps) (L ++ s) = true := by
  induction L with
  | nil => simpa using h
  | cons c L ih =>
    rw [List.cons_append, List.cons_append, likeMatch_cons_cons]
    by_cases h1 : c = '%'
    · subst h1
      simp [likeMatch_pct_weaken false (L ++ ps) (L ++ s) ih]
    by_cases h2 : c = '_'
    · subst h2
      simp [ih]
    · simp [h1, h2, ih]

/-! ### Trace-shape lemmas for build-artifact removal -/

theorem goodTrace_append {a b : List DbEvent} (ha : GoodTrace a) (hb : GoodTrace b) :
    GoodTrace (a ++ b) := by
  induction ha with
  | nil => simpa using hb
  | keep e t he _ ih => exact GoodTrace.keep e (t ++ b) he ih
  | delrem p hsh t _ ih => exact GoodTrace.delrem p hsh (t ++ b) ih

theorem syncGo_trace_good (fs : FS) :
    ∀ rows db evs ch, GoodTrace evs → GoodTrace (syncGo fs rows db evs ch).2.1 := by
  intro rows
  induction rows with
  | nil => intro db evs ch h; exact h
  | cons r rest ih =>
    intro db evs ch h
    cases hcu : checkUpdate fs r.path r.mtime r.hash with
    | Deleted =>
      rw [syncGo, hcu]
      apply ih
      by_cases hrh : r.hash = []
      · simp only [hrh, ne_eq, not_true_eq_false, if_false, List.append_nil]
        exact goodTrace_append h
          (GoodTrace.keep (DbEvent.deleteRow r.path) [] rfl GoodTrace.nil)
      · simp only [ne_eq, hrh, not_false_eq_true, if_true, List.append_assoc,
                   List.cons_append, List.nil_append]
        exact goodTrace_append h
          (GoodTrace.delrem r.path r.hash [] GoodTrace.nil)
    | Modified =>
      rw [syncGo, hcu]
      cases hpe : parseEntry fs r.path with
      | none => exact ih _ _ _ h
      | some e =>
        exact ih _ _ _
          (goodTrace_append h (GoodTrace.keep (DbEvent.updateRow e) [] rfl GoodTrace.nil))
    | NotModified =>
      rw [syncGo, hcu]
      exact ih _ _ _ h

theorem notMem_append_updIns (evs : List DbEvent) (hsh : Str) (ev : DbEvent)
    (h : DbEvent.removeBuild hsh ∉ evs) (hev : isRemoveBuild ev = false) :
    DbEvent.removeBuild hsh ∉ evs ++ [ev] := by
  simp only [List.mem_append, List.mem_singleton]
  rintro (hx | hx)
  · exact h hx
  · rw [← hx] at hev
    simp [isRemoveBuild] at hev

theorem addGo_trace_no_removeBuild (fs : FS) (cb : Entry → Bool → Bool) :
    ∀ paths db evs hsh, DbEvent.removeBuild hsh ∉ evs →
      DbEvent.removeBuild hsh ∉ (addGo fs cb paths db evs).2.2 := by
  intro paths
  induction paths with
  | nil => intro db evs hsh h; exact h
  | cons p rest ih =>
    intro db evs hsh h
    rw [addGo]
    split
    · exact ih _ _ _ h
    · split
      · split
        · split
          · exact ih _ _ _ h
          · split
            · exact ih _ _ _ (notMem_append_updIns evs hsh _ h rfl)
            · exact notMem_append_updIns evs hsh _ h rfl
        · exact ih _ _ _ h
      · split
        · exact ih _ _ _ h
        · split
          · exact ih _ _ _ (notMem_append_updIns evs hsh _ h rfl)
          · exact notMem_append_updIns evs hsh _ h rfl

theorem removeBuild_idx_lt_of_append (A B : List DbEvent)
    (hA : ∀ x ∈ A, isRowMut x = false) (hB : ∀ x ∈ B, isRemoveBuild x = false) :
    ∀ i j hsh p, (A ++ B).get? i = some (DbEvent.removeBuild hsh) →
      (A ++ B).get? j = some (DbEvent.deleteRow p) → i < j := by
  intro i j hsh p hi hj
  have hiA : i < A.length := by
    by_contra hge
    push_neg at hge
    rw [List.get?_append_right hge] at hi
    have hmem := List.get?_mem hi
    have := hB _ hmem
    simp [isRemoveBuild] at this
  have hjB : A.length ≤ j := by
    by_contra hlt
    push_neg at hlt
    rw [List.get?_append hlt] at hj
    have hmem := List.get?_mem hj
    have := hA _ hmem
    simp [isRowMut] at this
  omega

theorem dfiRemOps_all_removeBuild (matched : List Entry) :
    ∀ x ∈ dfiRemOps matched, isRowMut x = false := by
  induction matched with
  | nil => intro x hx; simp [dfiRemOps] at hx
  | cons e rest ih =>
    intro x hx
    simp only [dfiRemOps, List.foldr_cons, List.mem_append] at hx
    rcases hx with hx | hx
    · by_cases hh : e.hash = []
      · simp [hh] at hx
      · simp only [ne_eq, hh, not_false_eq_true, if_true, List.mem_singleton] at hx
        subst hx
        rfl
    · exact ih x (by simpa [dfiRemOps] using hx)

theorem deleteFromIndex_trace (db : List Entry) (q : Str) (f : Bool) :
    (deleteFromIndex db q f).2.2 =
      dfiRemOps (dfiMatched db q f) ++
        (if (dfiMatched db q f).length > 0 then
           (dfiMatched db q f).map (fun e => DbEvent.deleteRow e.path)
         else []) := by
  by_cases h : (dfiMatched db q f).length > 0 <;> simp [deleteFromIndex, h]

/-! ### Claim theorems -/

/-- C3: for an existing entry with stored mtime and hash, `checkUpdate`
returns `Deleted` when the file is missing; `NotModified` when the path is
a directory; `NotModified` without computing any hash when the file's
mtime equals the stored mtime (even if content changed); and when the
mtime differs it computes the SHA-256, returning `NotModified` when it
equals the stored hash — in which case `addToIndex` leaves the row
unchanged — and `Modified` otherwise. -/
theorem checkUpdate_spec :
    (∀ fs p m hsh, fsLookup fs p = none →
      checkUpdateH fs p m hsh = (FileStatus.Deleted, false)) ∧
    (∀ fs p m hsh fi, fsLookup fs p = some fi → fi.isDir = true →
      checkUpdateH fs p m hsh = (FileStatus.NotModified, false)) ∧
    (∀ fs p m hsh fi, fsLookup fs p = some fi → fi.isDir = false → fi.mtime = m →
      checkUpdateH fs p m hsh = (FileStatus.NotModified, false)) ∧
    (∀ fs p m hsh fi, fsLookup fs p = some fi → fi.isDir = false → fi.mtime ≠ m →
      fi.contentHash = hsh → checkUpdateH fs p m hsh = (FileStatus.NotModified, true)) ∧
    (∀ fs p m hsh fi, fsLookup fs p = some fi → fi.isDir = false → fi.mtime ≠ m →
      fi.contentHash ≠ hsh → checkUpdateH fs p m hsh = (FileStatus.Modified, true)) ∧
    (∀ fs cb p r, r.path = p →
      checkUpdate fs p r.mtime r.hash = FileStatus.NotModified →
      (addToIndex fs cb [p] [r]).rows = [r]) := by
  refine ⟨?_, ?_, ?_, ?_, ?_, ?_⟩
  · intro fs p m hsh h
    simp [checkUpdateH, h]
  · intro fs p m hsh fi h hdir
    simp [checkUpdateH, h, hdir]
  · intro fs p m hsh fi h hdir hmt
    simp [checkUpdateH, h, hdir, hmt]
  · intro fs p m hsh fi h hdir hmt hh
    simp [checkUpdateH, h, hdir, hmt, hh]
  · intro fs p m hsh fi h hdir hmt hh
    have hh2 : ¬ hsh = fi.contentHash := fun hc => hh hc.symm
    simp [checkUpdateH, h, hdir, hmt, hh2]
  · intro fs cb p r hpath hnm
    by_cases hbs : '\\' ∈ lastComponent p
    · simp [addToIndex, addGo, hbs]
    · simp [addToIndex, addGo, hbs, rowLookup, List.find?, hpath, hnm]

/-- C3 witness: the four `checkUpdate` branches and the unchanged-row fact
instantiated on the concrete one-image filesystem. -/
theorem checkUpdate_spec_witness :
    checkUpdateH [] "a.jpg".data 5 "h1".data = (FileStatus.Deleted, false) ∧
    checkUpdateH fsOneImage "a.jpg".data 5 "h1".data = (FileStatus.NotModified, false) ∧
    checkUpdateH fsTouched "a.jpg".data 5 "h2".data = (FileStatus.NotModified, true) ∧
    checkUpdateH fsTouched "a.jpg".data 5 "h1".data = (FileStatus.Modified, true) ∧
    (addToIndex fsOneImage (fun _ _ => true) ["a.jpg".data] dbOneImage).rows =
      dbOneImage :=
  ⟨checkUpdate_spec.1 [] "a.jpg".data 5 "h1".data (by decide),
   checkUpdate_spec.2.2.1 fsOneImage "a.jpg".data 5 "h1".data (imgInfo 5 "h1".data)
     (by decide) (by decide) (by decide),
   checkUpdate_spec.2.2.2.1 fsTouched "a.jpg".data 5 "h2".data (imgInfo 9 "h2".data)
     (by decide) (by decide) (by decide) (by decide),
   checkUpdate_spec.2.2.2.2.1 fsTouched "a.jpg".data 5 "h1".data (imgInfo 9 "h2".data)
     (by decide) (by decide) (by decide) (by decide),
   checkUpdate_spec.2.2.2.2.2 fsOneImage (fun _ _ => true) "a.jpg".data
     (imgRow "a.jpg".data 5 "h1".data) (by decide) (by decide)⟩

/-- C5: pattern sanitization is exactly the per-character encoding given
by the ordered substitutions `/` to `//`, `%` to `/%`, `_` to `/_`, `*`
to `%`; an empty sanitized pattern becomes `%`; and the pattern built for
the input `weird%name_*`, used with `/` as the LIKE escape character,
matches exactly the paths beginning with the literal text `weird%name_`. -/
theorem sanitize_like_spec :
    (∀ s : Str, sanitize_query_param s = flatF sanEnc s) ∧
    sanitize_query_param "weird%name_*".data = "weird/%name/_%".data ∧
    matchingPattern [] false = "%".data ∧
    ∀ s : Str, likeMatch true (matchingPattern "weird%name_*".data false) s =
      "weird%name_".data.isPrefixOf s := by
  refine ⟨sanitize_eq_flatF, by decide, by decide, ?_⟩
  intro s
  rw [show matchingPattern "weird%name_*".data false =
        flatF escEnc "weird%name_".data ++ ['%'] from by decide,
      likeMatch_escLit_prefix]

/-- C1 (evaluation of the code at the failing input): when the user
callback returns false for the single processed entry, `addToIndex`
returns mid-transaction: the trace holds the `BEGIN` and the pending
`INSERT` but no `COMMIT`, no `ROLLBACK` and no last-edit update, so the
transaction is neither rolled back nor cleanly committed as the claim
requires. -/
theorem addToIndex_cancel_leaves_transaction_open :
    addToIndex fsOneImage (fun _ _ => false) ["a.jpg".data] [] =
      { rows := [imgRow "a.jpg".data 5 "h1".data],
        events := [DbEvent.beginTx, DbEvent.insertRow (imgRow "a.jpg".data 5 "h1".data)],
        completed := false } := by decide

/-- C10: the trailing-separator test of `moveEntry` reads the character at
index `length - 1` computed in `size_t` arithmetic; for every non-empty
argument this index is in bounds and designates the last character, while
for the empty string the subtraction wraps to `2^64 - 1` and the access is
out of bounds, so non-emptiness is an unstated precondition. -/
theorem moveEntry_last_access_bounds :
    (∀ s : Str, s ≠ [] → s.length < 2 ^ 64 →
      moveEntrySepIndex s < s.length ∧ moveEntryLastAccess s = s.getLast?) ∧
    moveEntrySepIndex [] = 2 ^ 64 - 1 ∧ moveEntryLastAccess [] = none := by
  refine ⟨?_, by decide, rfl⟩
  intro s hne hlt
  have hl : 1 ≤ s.length := List.length_pos.mpr hne
  have hidx : moveEntrySepIndex s = s.length - 1 := by
    unfold moveEntrySepIndex
    rw [show s.length + (2 ^ 64 - 1) = (s.length - 1) + 2 ^ 64 by omega,
        Nat.add_mod_right, Nat.mod_eq_of_lt (by omega)]
  refine ⟨by omega, ?_⟩
  rw [moveEntryLastAccess, hidx, List.getLast?_eq_getElem?, List.get?_eq_getElem?]

/-- C10 witness: the in-bounds access instantiated on a two-character
path. -/
theorem moveEntry_last_access_bounds_witness :
    moveEntrySepIndex "ab".data < ("ab".data).length ∧
    moveEntryLastAccess "ab".data = ("ab".data).getLast? :=
  moveEntry_last_access_bounds.1 "ab".data (by decide) (by decide)

/-- C2 counterexample: on a one-row table whose file was deleted on disk,
`syncIndex` executes the row `DELETE` first and removes the build subtree
afterwards; and on a one-row table whose file changed on disk (stored
hash `h1`, new hash `h2`), `syncIndex`'s Modified branch performs no
build-subtree removal at all.  In both traces the claimed
invalidate-before-mutate ordering is false. -/
theorem buildRemoval_order_counterexample :
    invalidationBeforeMutation (syncIndex [] dbOneImage).events = false ∧
    (syncIndex [] dbOneImage).events =
      [DbEvent.beginTx, DbEvent.deleteRow "a.jpg".data, DbEvent.removeBuild "h1".data,
       DbEvent.commitTx, DbEvent.setLast] ∧
    (syncIndex fsTouched dbOneImage).events =
      [DbEvent.beginTx, DbEvent.updateRow (imgRow "a.jpg".data 9 "h2".data),
       DbEvent.commitTx, DbEvent.setLast] ∧
    (syncIndex fsTouched dbOneImage).events.all (fun e => ! isRemoveBuild e) = true ∧
    invalidationBeforeMutation (syncIndex fsTouched dbOneImage).events = false := by
  decide

/-- C2 (amended): build-subtree removal happens only on entry removal,
never on a bare hash change.  In `deleteFromIndex` every build removal
precedes every row deletion of the trace; in `syncIndex` a build removal
can occur only immediately after the corresponding row's `DELETE` (so the
`Modified` branch performs none); and `addToIndex` (hence its update
branch) emits no build removal at all. -/
theorem buildRemoval_order_amended :
    (∀ db q f i j hsh p,
      (deleteFromIndex db q f).2.2.get? i = some (DbEvent.removeBuild hsh) →
      (deleteFromIndex db q f).2.2.get? j = some (DbEvent.deleteRow p) → i < j) ∧
    (∀ fs db, GoodTrace (syncIndex fs db).events) ∧
    (∀ fs cb paths db hsh,
      DbEvent.removeBuild hsh ∉ (addToIndex fs cb paths db).events) := by
  refine ⟨?_, ?_, ?_⟩
  · intro db q f i j hsh p hi hj
    rw [deleteFromIndex_trace] at hi hj
    refine removeBuild_idx_lt_of_append _ _ (dfiRemOps_all_removeBuild _) ?_ i j hsh p hi hj
    intro x hx
    by_cases hm : (dfiMatched db q f).length > 0
    · simp only [hm, if_true, List.mem_map] at hx
      obtain ⟨e, _, hx⟩ := hx
      rw [← hx]
      rfl
    · simp [hm] at hx
  · intro fs db
    simp only [syncIndex]
    refine goodTrace_append (goodTrace_append
      (syncGo_trace_good fs db db _ false
        (GoodTrace.keep DbEvent.beginTx [] rfl GoodTrace.nil))
      (GoodTrace.keep DbEvent.commitTx [] rfl GoodTrace.nil)) ?_
    split
    · exact GoodTrace.keep DbEvent.setLast [] rfl GoodTrace.nil
    · exact GoodTrace.nil
  · intro fs cb paths db hsh
    simp only [addToIndex]
    split
    · simp
    · split
      · intro hx
        rcases List.mem_append.mp hx with hx1 | hx1
        · exact addGo_trace_no_removeBuild fs cb paths db [DbEvent.beginTx] hsh
            (by simp) hx1
        · simp at hx1
      · exact addGo_trace_no_removeBuild fs cb paths db [DbEvent.beginTx] hsh (by simp)

/-- C2 witness: in `deleteFromIndex` on a one-file table, the build
removal (index 0) precedes the row deletion (index 1). -/
theorem buildRemoval_order_amended_witness : (0 : Nat) < 1 :=
  buildRemoval_order_amended.1 dbOneFile "a".data false 0 1 "h".data "a".data
    (by decide) (by decide)

/-- C6 counterexample: on a table holding the single entry `a`,
`removeFromIndex ["a", "b"]` throws even though an entry matched the
first input (and was deleted), because the no-match check runs per input
path, not across all inputs. -/
theorem removeFromIndex_fail_counterexample :
    removeFromIndex dbOneFile ["a".data, "b".data] = Except.error () ∧
    getMatchingEntries dbOneFile "a".data 0 false = dbOneFile := by
  decide

/-- C6 (amended): `removeFromIndex` processes its inputs in order and
fails as soon as one input path matches no entries in the table state
left by the earlier inputs, even when other inputs matched; for a single
input it succeeds exactly when the input matches at least one entry. -/
theorem removeFromIndex_fail_amended :
    (∀ db p, isOkE (removeFromIndex db [p]) =
      ! (getMatchingEntries db p 0 false).isEmpty) ∧
    (∀ db p rest, getMatchingEntries db p 0 false = [] →
      removeFromIndex db (p :: rest) = Except.error ()) := by
  constructor
  · intro db p
    cases hms : getMatchingEntries db p 0 false with
    | nil =>
      simp [removeFromIndex, removeGo, hms, procMatches, isOkE]
    | cons e rest1 =>
      have hmem : e ∈ db := by
        have he : e ∈ getMatchingEntries db p 0 false := by
          rw [hms]; exact List.mem_cons_self e rest1
        simp only [getMatchingEntries, gt_iff_lt, Nat.lt_irrefl, if_false] at he
        exact (List.mem_filter.mp he).1
      have hself : likeMatch true (dfiPattern e.path false) e.path = true := by
        simp only [dfiPattern, if_false]
        rw [sanitize_eq_flatF]
        exact likeMatch_sanitize_self e.path
      have hm1 : e ∈ dfiMatched db e.path false :=
        List.mem_filter.mpr ⟨hmem, hself⟩
      have hlen : 0 < (dfiMatched db e.path false).length :=
        List.length_pos.mpr (List.ne_nil_of_mem hm1)
      have hc1 : (deleteFromIndex db e.path false).1 =
          (dfiMatched db e.path false).length := by
        simp [deleteFromIndex, hlen]
      have htot : (procMatches db (e :: rest1)).1 ≠ 0 := by
        rw [procMatches]
        simp only []
        omega
      simp only [removeFromIndex, List.cons_ne_self, removeGo, hms, isOkE]
      simp only [if_neg htot]
      simp [removeGo, isOkE]
  · intro db p rest h
    simp [removeFromIndex, removeGo, h, procMatches]

/-! ### Synchronisation lemmas: rows written by `addToIndex` are in sync -/

theorem parseEntry_rowSynced (fs : FS) (p : Str) (e : Entry)
    (h : parseEntry fs p = some e) : rowSynced fs e := by
  unfold parseEntry at h
  cases hf : fsLookup fs p with
  | none => rw [hf] at h; exact Option.noConfusion h
  | some fi =>
    rw [hf] at h
    split at h
    · rename_i heq
      exact Option.noConfusion heq
    · rename_i fi2 heq
      injection heq with heq2
      subst heq2
      split at h
      · rename_i hdir
        injection h with h2
        rw [← h2]
        simp [rowSynced, checkUpdate, checkUpdateH, hf, hdir]
      · rename_i hdir
        injection h with h2
        rw [← h2]
        simp only [Bool.not_eq_true] at hdir
        simp [rowSynced, checkUpdate, checkUpdateH, hf, hdir]

theorem mem_updateRowDb (db : List Entry) (e r : Entry)
    (h : r ∈ updateRowDb db e) : r ∈ db ∨ r = e := by
  simp only [updateRowDb, List.mem_map] at h
  obtain ⟨a, ha, hr⟩ := h
  by_cases hp : a.path = e.path
  · rw [if_pos hp] at hr
    exact Or.inr hr.symm
  · rw [if_neg hp] at hr
    exact Or.inl (hr ▸ ha)

theorem addGo_rows_synced (fs : FS) (cb : Entry → Bool → Bool) :
    ∀ paths db evs, (∀ r ∈ db, rowSynced fs r) →
      ∀ r ∈ (addGo fs cb paths db evs).2.1, rowSynced fs r := by
  intro paths
  induction paths with
  | nil => intro db evs h; exact h
  | cons p rest ih =>
    intro db evs h
    rw [addGo]
    split
    · exact ih _ _ h
    · split
      · split
        · split
          · exact ih _ _ h
          · rename_i e hpe
            have hsync := parseEntry_rowSynced fs p e hpe
            have hupd : ∀ r ∈ updateRowDb db e, rowSynced fs r := by
              intro r hr
              rcases mem_updateRowDb db e r hr with hr1 | hr1
              · exact h r hr1
              · rw [hr1]; exact hsync
            split
            · exact ih _ _ hupd
            · exact hupd
        · exact ih _ _ h
      · split
        · exact ih _ _ h
        · rename_i e hpe
          have hsync := parseEntry_rowSynced fs p e hpe
          have hins : ∀ r ∈ insertRowDb db e, rowSynced fs r := by
            intro r hr
            rcases List.mem_append.mp hr with hr1 | hr1
            · exact h r hr1
            · rw [List.mem_singleton.mp hr1]; exact hsync
          split
          · exact ih _ _ hins
          · exact hins

theorem addToIndex_rows_synced (fs : FS) (cb : Entry → Bool → Bool)
    (paths : List Str) (db : List Entry) (h : ∀ r ∈ db, rowSynced fs r) :
    ∀ r ∈ (addToIndex fs cb paths db).rows, rowSynced fs r := by
  simp only [addToIndex]
  split
  · exact h
  · split
    · exact addGo_rows_synced fs cb paths db [DbEvent.beginTx] h
    · exact addGo_rows_synced fs cb paths db [DbEvent.beginTx] h

theorem syncGo_noop (fs : FS) :
    ∀ rows db evs ch, (∀ r ∈ rows, rowSynced fs r) →
      syncGo fs rows db evs ch = (db, evs, ch) := by
  intro rows
  induction rows with
  | nil => intro db evs ch _; rfl
  | cons r rest ih =>
    intro db evs ch h
    have hr : checkUpdate fs r.path r.mtime r.hash = FileStatus.NotModified :=
      h r (List.mem_cons_self r rest)
    rw [syncGo, hr]
    exact ih _ _ _ (fun x hx => h x (List.mem_cons_of_mem r hx))

/-- C7: running `addToIndex` (with any callback and path list) on an index
whose rows are in sync with the filesystem and then running `syncIndex`
with no intervening filesystem change is a no-op: the sync updates and
deletes no rows, its trace is just `BEGIN`/`COMMIT`, and the `changed`
flag stays false so the last-edit timestamp is not touched. -/
theorem add_then_sync_noop (fs : FS) (cb : Entry → Bool → Bool)
    (paths : List Str) (db : List Entry) (h : ∀ r ∈ db, rowSynced fs r) :
    syncIndex fs (addToIndex fs cb paths db).rows =
      { rows := (addToIndex fs cb paths db).rows,
        events := [DbEvent.beginTx, DbEvent.commitTx], changed := false } := by
  have hs := addToIndex_rows_synced fs cb paths db h
  simp only [syncIndex, syncGo_noop fs _ _ _ _ hs]
  rfl

/-- C7 witness: adding a fresh image to an empty index and syncing leaves
the inserted row untouched with no last-edit update from the sync. -/
theorem add_then_sync_noop_witness :
    syncIndex fsOneImage (addToIndex fsOneImage (fun _ _ => true) ["a.jpg".data] []).rows =
      { rows := (addToIndex fsOneImage (fun _ _ => true) ["a.jpg".data] []).rows,
        events := [DbEvent.beginTx, DbEvent.commitTx], changed := false } :=
  add_then_sync_noop fsOneImage (fun _ _ => true) ["a.jpg".data] []
    (fun r hr => absurd hr (List.not_mem_nil r))

/-- C9 counterexample: with a `Directory` entry at `a`, `moveEntry` of
`a` onto `a` succeeds as a no-op although the source is a directory entry
and an entry (itself) exists at the destination, so the claimed failure
does not occur. -/
theorem moveEntry_conflict_counterexample :
    moveEntry dbDirA "a".data "a".data 5 = Except.ok dbDirA ∧
    getEntry dbDirA "a".data = some (dirRow "a".data 0) ∧
    (dirRow "a".data 0).type = EntryType.Directory := by
  decide

/-- C9 (amended): except for the equal-endpoints no-op, `moveEntry` fails
with an argument error when the source is a `Directory` entry and any
entry exists at the destination, and when the source is a file entry and
the destination entry is a `Directory`; when both endpoints are distinct
file entries (and pass the syntactic argument checks), the pre-existing
destination row is deleted first and the source row is then rewritten to
the destination. -/
theorem moveEntry_conflict_amended :
    (∀ db s d now se, s ≠ d → getEntry db s = some se →
      se.type = EntryType.Directory → (getEntry db d).isSome = true →
      isOkE (moveEntry db s d now) = false) ∧
    (∀ db s d now se de, getEntry db s = some se → se.type ≠ EntryType.Directory →
      getEntry db d = some de → de.type = EntryType.Directory →
      isOkE (moveEntry db s d now) = false) ∧
    (∀ db s d now se de, trailingSep s = false → hasDotNotation s = false →
      trailingSep d = false → hasDotNotation d = false → s ≠ d →
      getEntry db s = some se → se.type ≠ EntryType.Directory →
      getEntry db d = some de → de.type ≠ EntryType.Directory →
      moveEntry db s d now = Except.ok (replacePath (deleteEntry db d) s d)) := by
  refine ⟨?_, ?_, ?_⟩
  · intro db s d now se hsd hse hty hd
    obtain ⟨de, hde⟩ := Option.isSome_iff_exists.mp hd
    simp only [moveEntry]
    split
    · rfl
    split
    · rfl
    split
    · rfl
    split
    · rfl
    rw [hse, hde]
    simp [hty, isOkE]
  · intro db s d now se de hse hty hde hdty
    by_cases hsd : s = d
    · subst hsd
      rw [hse] at hde
      injection hde with hde2
      rw [← hde2] at hdty
      exact absurd hdty hty
    · simp only [moveEntry]
      split
      · rfl
      split
      · rfl
      split
      · rfl
      split
      · rfl
      rw [hse, hde]
      simp [hty, hdty, isOkE]
  · intro db s d now se de h1 h2 h3 h4 hsd hse hty hde hdty
    simp only [moveEntry, h1, h2, h3, h4, Bool.false_eq_true, if_false]
    rw [if_neg hsd, hse, hde]
    simp [hty, hdty]

/-- C9 witness: moving `a/b/img.jpg` onto the pre-existing
`a/b/pic.jpg` deletes the destination row first and rewrites the source
row. -/
theorem moveEntry_conflict_amended_witness :
    moveEntry dbTwoFiles "a/b/img.jpg".data "a/b/pic.jpg".data 0 =
      Except.ok (replacePath (deleteEntry dbTwoFiles "a/b/pic.jpg".data)
        "a/b/img.jpg".data "a/b/pic.jpg".data) :=
  moveEntry_conflict_amended.2.2 dbTwoFiles "a/b/img.jpg".data "a/b/pic.jpg".data 0
    (imgRow "a/b/img.jpg".data 1 "h1".data) (imgRow "a/b/pic.jpg".data 2 "h2".data)
    (by decide) (by decide) (by decide) (by decide) (by decide) (by decide)
    (by decide) (by decide) (by decide)

/-! ### Folder-synthesis lemmas -/

theorem cmfGo_mono (now : Int) :
    ∀ ws acc x, x ∈ acc → x ∈ cmfGo now acc ws := by
  intro ws
  induction ws with
  | nil => intro acc x hx; exact hx
  | cons w rest ih =>
    intro acc x hx
    rw [cmfGo]
    split
    · exact ih _ x (List.mem_append.mpr (Or.inl hx))
    · exact ih _ x hx

theorem cmfGo_new_rows (now : Int) :
    ∀ ws acc x, x ∈ cmfGo now acc ws →
      x ∈ acc ∨ ∃ r ∈ ws, x = dirRow (folderOf r.path) now := by
  intro ws
  induction ws with
  | nil => intro acc x hx; exact Or.inl hx
  | cons w rest ih =>
    intro acc x hx
    rw [cmfGo] at hx
    split at hx
    · rcases ih _ x hx with hx1 | ⟨r, hr, hx1⟩
      · rcases List.mem_append.mp hx1 with hx2 | hx2
        · exact Or.inl hx2
        · exact Or.inr ⟨w, List.mem_cons_self w rest,
            (List.mem_singleton.mp hx2)⟩
      · exact Or.inr ⟨r, List.mem_cons_of_mem w hr, hx1⟩
    · rcases ih _ x hx with hx1 | ⟨r, hr, hx1⟩
      · exact Or.inl hx1
      · exact Or.inr ⟨r, List.mem_cons_of_mem w hr, hx1⟩

theorem cmfGo_covers (now : Int) :
    ∀ ws acc r, r ∈ ws → folderOf r.path ≠ [] →
      ∃ x ∈ cmfGo now acc ws, x.path = folderOf r.path ∧
        x.type = EntryType.Directory := by
  intro ws
  induction ws with
  | nil => intro acc r hr; exact absurd hr (List.not_mem_nil r)
  | cons w rest ih =>
    intro acc r hr hf
    rcases List.mem_cons.mp hr with hr1 | hr1
    · subst hr1
      rw [cmfGo]
      split
      · refine ⟨dirRow (folderOf r.path) now, ?_, rfl, rfl⟩
        exact cmfGo_mono now rest _ _
          (List.mem_append.mpr (Or.inr (List.mem_singleton.mpr rfl)))
      · rename_i hcond
        rw [not_and_or] at hcond
        rcases hcond with hcond | hcond
        · exact absurd hf (by simpa using hcond)
        · rw [not_not, List.any_eq_true] at hcond
          obtain ⟨x, hx, hx2⟩ := hcond
          have hx3 := of_decide_eq_true hx2
          exact ⟨x, cmfGo_mono now rest _ _ hx, hx3.1, hx3.2⟩
    · rw [cmfGo]
      split
      · exact ih _ r hr1 hf
      · exact ih _ r hr1 hf

/-! ### Enumeration lemmas for directory moves -/

theorem listFolderPaths_complete (db : List Entry) (source : Str) :
    ∀ r ∈ db, (r.path = source ∨ (source ++ "/".data).isPrefixOf r.path = true) →
      r.path ∈ listFolderPaths db source := by
  intro r hr hpre
  refine List.mem_map.mpr ⟨r, List.mem_filter.mpr ⟨hr, ?_⟩, rfl⟩
  rcases hpre with hpre | hpre
  · simp [hpre]
  · have ⟨t, ht⟩ := (List.isPrefixOf_iff_prefix.mp hpre)
    have hm : likeMatch false (source ++ "/%".data) r.path = true := by
      rw [show source ++ "/%".data = (source ++ "/".data) ++ ['%'] from by
            simp [List.append_assoc], ← ht]
      exact likeMatch_noesc_append_mono (source ++ "/".data) ['%'] t
        (likeMatch_pct_all false t)
    simp [hm]

theorem listFolderPaths_exact (db : List Entry) (source : Str)
    (hw : ∀ c ∈ source, c ≠ '%' ∧ c ≠ '_') :
    listFolderPaths db source =
      (db.filter (fun r =>
        (source ++ "/".data).isPrefixOf r.path || r.path = source)).map
        (fun r => r.path) := by
  unfold listFolderPaths
  congr 1
  apply List.filter_congr
  intro r _
  have hL : ∀ c ∈ source ++ "/".data, c ≠ '%' ∧ c ≠ '_' := by
    intro c hc
    rcases List.mem_append.mp hc with hc | hc
    · exact hw c hc
    · rcases List.mem_singleton.mp hc with rfl
      exact ⟨by decide, by decide⟩
  have := likeMatch_noesc_lit_prefix (source ++ "/".data) hL r.path
  rw [show source ++ "/%".data = (source ++ "/".data) ++ ['%'] from by
        simp [List.append_assoc], this]

/-- C8 counterexample: moving directory `a/b` (holding file `a/b/f`) to
`c/d` where no entry `c` exists rewrites the subtree, but
`createMissingFolders` creates no `Directory` row for `c` (the rewritten
`c/d` row has type `Directory` and the consistency query only examines
non-directory rows), so the every-proper-prefix invariant is not
restored. -/
theorem moveEntry_dir_counterexample :
    folderInvariant dbMoveSrc = true ∧
    moveEntry dbMoveSrc "a/b".data "c/d".data 9 = Except.ok dbMoveOut ∧
    folderInvariant dbMoveOut = false := by
  decide

/-- C8 (amended): for a directory move, the enumeration by
`path LIKE 'source/%' OR path = source` (no escape clause) contains every
entry equal to `source` or under `source/`, and for a source free of the
LIKE wildcards `%` and `_` it is exactly those entries; each enumerated
path is rewritten by substituting the source prefix with the destination,
any pre-existing row at the rewritten path is deleted first, and the
row's path and depth are then rewritten; afterwards
`createMissingFolders` runs, which only inserts synthetic `Directory`
rows at the computed immediate parent folder of non-directory rows and
does insert one for every such row whose computed parent is non-empty
(it does not restore the full prefix invariant). -/
theorem moveEntry_dir_amended :
    (∀ db source r, r ∈ db →
      (r.path = source ∨ (source ++ "/".data).isPrefixOf r.path = true) →
      r.path ∈ listFolderPaths db source) ∧
    (∀ db source, (∀ c ∈ source, c ≠ '%' ∧ c ≠ '_') →
      listFolderPaths db source =
        (db.filter (fun r =>
          (source ++ "/".data).isPrefixOf r.path || r.path = source)).map
          (fun r => r.path)) ∧
    (∀ db s d now se, trailingSep s = false → hasDotNotation s = false →
      trailingSep d = false → hasDotNotation d = false → s ≠ d →
      getEntry db s = some se → se.type = EntryType.Directory →
      getEntry db d = none →
      moveEntry db s d now =
        Except.ok (createMissingFolders
          (moveFoldGo s d db (listFolderPaths db s)) now)) ∧
    (∀ db now x, x ∈ createMissingFolders db now →
      x ∈ db ∨ ∃ r ∈ db, r.type ≠ EntryType.Directory ∧
        x = dirRow (folderOf r.path) now) ∧
    (∀ db now r, r ∈ db → r.type ≠ EntryType.Directory →
      folderOf r.path ≠ [] →
      ∃ x ∈ createMissingFolders db now, x.path = folderOf r.path ∧
        x.type = EntryType.Directory) := by
  refine ⟨listFolderPaths_complete, listFolderPaths_exact, ?_, ?_, ?_⟩
  · intro db s d now se h1 h2 h3 h4 hsd hse hty hde
    simp only [moveEntry, h1, h2, h3, h4, Bool.false_eq_true, if_false]
    rw [if_neg hsd, hse, hde]
    simp [hty]
  · intro db now x hx
    rcases cmfGo_new_rows now _ db x hx with hx1 | ⟨r, hr, hx1⟩
    · exact Or.inl hx1
    · have hr2 := List.mem_filter.mp hr
      exact Or.inr ⟨r, hr2.1, of_decide_eq_true hr2.2, hx1⟩
  · intro db now r hr hty hf
    refine cmfGo_covers now _ db r ?_ hf
    exact List.mem_filter.mpr ⟨hr, decide_eq_true hty⟩

/-- C8 witness: the amended directory-move evaluation instantiated on the
concrete move of `a/b` to `c/d`. -/
theorem moveEntry_dir_amended_witness :
    moveEntry dbMoveSrc "a/b".data "c/d".data 9 =
      Except.ok (createMissingFolders
        (moveFoldGo "a/b".data "c/d".data dbMoveSrc
          (listFolderPaths dbMoveSrc "a/b".data)) 9) :=
  moveEntry_dir_amended.2.2.1 dbMoveSrc "a/b".data "c/d".data 9
    (dirRow "a/b".data 0) (by decide) (by decide) (by decide) (by decide)
    (by decide) (by decide) (by decide) (by decide)

/-! ### Preservation lemmas for the directory-row invariant -/

theorem dirOK_dirRow (p : Str) (now : Int) : dirOK (dirRow p now) :=
  fun _ => ⟨rfl, rfl, rfl, rfl, rfl⟩

theorem DirsOK_filter (db : List Entry) (f : Entry → Bool) (h : DirsOK db) :
    DirsOK (db.filter f) :=
  fun e he => h e (List.mem_filter.mp he).1

theorem DirsOK_addFolder (db : List Entry) (p : Str) (now : Int)
    (h : DirsOK db) : DirsOK (addFolder db p now) := by
  intro e he
  rcases List.mem_append.mp he with he1 | he1
  · exact h e he1
  · rw [List.mem_singleton.mp he1]
    exact dirOK_dirRow p now

theorem DirsOK_createMissingFolders (db : List Entry) (now : Int)
    (h : DirsOK db) : DirsOK (createMissingFolders db now) := by
  intro e he
  rcases cmfGo_new_rows now _ db e he with he1 | ⟨r, _, he1⟩
  · exact h e he1
  · rw [he1]
    exact dirOK_dirRow _ now

theorem fsLookup_mem (fs : FS) (p : Str) (fi : FileInfo)
    (h : fsLookup fs p = some fi) : ∃ pr ∈ fs, pr.2 = fi := by
  unfold fsLookup at h
  rcases Option.map_eq_some'.mp h with ⟨pr, hpr, hpr2⟩
  exact ⟨pr, List.mem_of_find?_eq_some hpr, hpr2⟩

theorem parseEntry_dirOK (fs : FS) (p : Str) (e : Entry) (hw : FSWF fs)
    (h : parseEntry fs p = some e) : dirOK e := by
  unfold parseEntry at h
  cases hf : fsLookup fs p with
  | none => rw [hf] at h; exact Option.noConfusion h
  | some fi =>
    rw [hf] at h
    split at h
    · rename_i heq
      exact Option.noConfusion heq
    · rename_i fi2 heq
      injection heq with heq2
      subst heq2
      split at h
      · injection h with h2
        rw [← h2]
        exact fun _ => ⟨rfl, rfl, rfl, rfl, rfl⟩
      · rename_i hdir
        injection h with h2
        rw [← h2]
        intro hty
        obtain ⟨pr, hpr, hpr2⟩ := fsLookup_mem fs p fi hf
        simp only [Bool.not_eq_true] at hdir
        exact absurd hty (by
          have := hw pr hpr (by rw [hpr2]; exact hdir)
          rw [hpr2] at this
          exact this)

theorem DirsOK_updateRowDb (db : List Entry) (e : Entry)
    (h : DirsOK db) (he : dirOK e) : DirsOK (updateRowDb db e) := by
  intro r hr
  rcases mem_updateRowDb db e r hr with hr1 | hr1
  · exact h r hr1
  · rw [hr1]; exact he

theorem DirsOK_insertRowDb (db : List Entry) (e : Entry)
    (h : DirsOK db) (he : dirOK e) : DirsOK (insertRowDb db e) := by
  intro r hr
  rcases List.mem_append.mp hr with hr1 | hr1
  · exact h r hr1
  · rw [List.mem_singleton.mp hr1]; exact he

theorem DirsOK_replacePath (db : List Entry) (s d : Str) (h : DirsOK db) :
    DirsOK (replacePath db s d) := by
  intro r hr
  simp only [replacePath, List.mem_map] at hr
  obtain ⟨a, ha, hr1⟩ := hr
  by_cases hp : a.path = s
  · rw [if_pos hp] at hr1
    rw [← hr1]
    intro hty
    exact h a ha hty
  · rw [if_neg hp] at hr1
    rw [← hr1]
    exact h a ha

theorem addGo_DirsOK (fs : FS) (cb : Entry → Bool → Bool) (hw : FSWF fs) :
    ∀ paths db evs, DirsOK db → DirsOK (addGo fs cb paths db evs).2.1 := by
  intro paths
  induction paths with
  | nil => intro db evs h; exact h
  | cons p rest ih =>
    intro db evs h
    rw [addGo]
    split
    · exact ih _ _ h
    · split
      · split
        · split
          · exact ih _ _ h
          · rename_i e hpe
            have he := parseEntry_dirOK fs p e hw hpe
            split
            · exact ih _ _ (DirsOK_updateRowDb db e h he)
            · exact DirsOK_updateRowDb db e h he
        · exact ih _ _ h
      · split
        · exact ih _ _ h
        · rename_i e hpe
          have he := parseEntry_dirOK fs p e hw hpe
          split
          · exact ih _ _ (DirsOK_insertRowDb db e h he)
          · exact DirsOK_insertRowDb db e h he

theorem syncGo_DirsOK (fs : FS) (hw : FSWF fs) :
    ∀ rows db evs ch, DirsOK db → DirsOK (syncGo fs rows db evs ch).1 := by
  intro rows
  induction rows with
  | nil => intro db evs ch h; exact h
  | cons r rest ih =>
    intro db evs ch h
    rw [syncGo]
    split
    · exact ih _ _ _ (DirsOK_filter db _ h)
    · split
      · rename_i e hpe
        exact ih _ _ _ (DirsOK_updateRowDb db e h (parseEntry_dirOK fs r.path e hw hpe))
      · exact ih _ _ _ h
    · exact ih _ _ _ h

theorem deleteFromIndex_DirsOK (db : List Entry) (q : Str) (f : Bool)
    (h : DirsOK db) : DirsOK (deleteFromIndex db q f).2.1 := by
  simp only [deleteFromIndex]
  split
  · exact DirsOK_filter db _ h
  · exact h

theorem procMatches_DirsOK :
    ∀ ms db, DirsOK db → DirsOK (procMatches db ms).2 := by
  intro ms
  induction ms with
  | nil => intro db h; exact h
  | cons e rest ih =>
    intro db h
    rw [procMatches]
    apply ih
    split
    · exact deleteFromIndex_DirsOK _ _ _ (deleteFromIndex_DirsOK db _ _ h)
    · exact deleteFromIndex_DirsOK db _ _ h

theorem removeGo_DirsOK :
    ∀ paths db db2, DirsOK db → removeGo db paths = Except.ok db2 → DirsOK db2 := by
  intro paths
  induction paths with
  | nil =>
    intro db db2 h heq
    injection heq with heq2
    rw [← heq2]
    exact h
  | cons p rest ih =>
    intro db db2 h heq
    rw [removeGo] at heq
    split at heq
    · exact Except.noConfusion heq
    · exact ih _ db2 (procMatches_DirsOK _ db h) heq

theorem moveFoldGo_DirsOK (s d : Str) :
    ∀ ps db, DirsOK db → DirsOK (moveFoldGo s d db ps) := by
  intro ps
  induction ps with
  | nil => intro db h; exact h
  | cons p rest ih =>
    intro db h
    rw [moveFoldGo]
    exact ih _ (DirsOK_replacePath _ _ _ (DirsOK_filter db _ h))

/-- C4: every way the code mutates the table preserves invariant 5 —
each `Directory` row has empty hash, `null` metadata, zero size and no
geometries; in particular the synthetic rows of
`addFolder`/`createMissingFolders` satisfy it outright, so it holds in
every committed state reachable by the modelled operations from a state
satisfying it. -/
theorem directory_rows_invariant :
    (∀ p now, dirOK (dirRow p now)) ∧
    (∀ db p now, DirsOK db → DirsOK (addFolder db p now)) ∧
    (∀ db now, DirsOK db → DirsOK (createMissingFolders db now)) ∧
    (∀ fs cb paths db, FSWF fs → DirsOK db →
      DirsOK (addToIndex fs cb paths db).rows) ∧
    (∀ fs db, FSWF fs → DirsOK db → DirsOK (syncIndex fs db).rows) ∧
    (∀ db q f, DirsOK db → DirsOK (deleteFromIndex db q f).2.1) ∧
    (∀ db paths db2, DirsOK db → removeFromIndex db paths = Except.ok db2 →
      DirsOK db2) ∧
    (∀ db s d now db2, DirsOK db → moveEntry db s d now = Except.ok db2 →
      DirsOK db2) := by
  refine ⟨dirOK_dirRow, DirsOK_addFolder, DirsOK_createMissingFolders,
    ?_, ?_, deleteFromIndex_DirsOK, ?_, ?_⟩
  · intro fs cb paths db hw h
    simp only [addToIndex]
    split
    · exact h
    · split
      · exact addGo_DirsOK fs cb hw paths db _ h
      · exact addGo_DirsOK fs cb hw paths db _ h
  · intro fs db hw h
    simp only [syncIndex]
    exact syncGo_DirsOK fs hw db db _ false h
  · intro db paths db2 h heq
    rw [removeFromIndex] at heq
    split at heq
    · injection heq with heq2
      rw [← heq2]
      exact h
    · exact removeGo_DirsOK paths db db2 h heq
  · intro db s d now db2 h heq
    rw [moveEntry] at heq
    split at heq
    · exact Except.noConfusion heq
    split at heq
    · exact Except.noConfusion heq
    split at heq
    · exact Except.noConfusion heq
    split at heq
    · exact Except.noConfusion heq
    split at heq
    · injection heq with heq2
      rw [← heq2]
      exact h
    · split at heq
      · exact Except.noConfusion heq
      · split at heq
        · split at heq
          · exact Except.noConfusion heq
          · split at heq
            · exact Except.noConfusion heq
            · injection heq with heq2
              rw [← heq2]
              exact DirsOK_replacePath _ _ _ (DirsOK_filter db _ h)
        · split at heq
          · injection heq with heq2
            rw [← heq2]
            exact DirsOK_createMissingFolders _ now
              (moveFoldGo_DirsOK s d _ db h)
          · injection heq with heq2
            rw [← heq2]
            exact DirsOK_replacePath db s d h

/-- C4 witness: the invariant is preserved by adding a fresh image to a
table holding a synthetic directory row. -/
theorem directory_rows_invariant_witness :
    DirsOK (addToIndex fsOneImage (fun _ _ => true) ["a.jpg".data] dbDirA).rows :=
  directory_rows_invariant.2.2.2.1 fsOneImage (fun _ _ => true) ["a.jpg".data]
    dbDirA
    (by unfold FSWF; decide)
    (by unfold DirsOK dirOK; decide)

end DroneDB
